import Mathlib

/-!
Verification of the Course Search predicate-compilation logic.

The repository is a Streamlit dashboard (two iterations: v1.4.2 at the top
level and v1.3.2 in a subdirectory) that compiles user search state into a
SQL WHERE clause over one read-only view.  This development embeds the
semantic content of that WHERE clause: text is modelled as `List Char`
(ASCII), a result row as a structure of its queried columns, and each SQL
fragment the code emits (`LIKE`, `REGEXP_REPLACE`-based normalized columns,
`IN`, `TRY_TO_NUMBER ... BETWEEN`) by an executable Lean function with the
same meaning.  The code splices user text into single-quoted SQL string
literals after `esc_sql` (doubling of single quotes); at SQL parse time the
literal is decoded again — quote-doubling is undone and backslash escape
sequences are processed (`\n` → newline, `\z` → `z`, ...).  The v1.3.2
plain-contains fallback models this round-trip explicitly
(`parseSqlLiteral ∘ esc_sql`); in smart mode the spliced phrase consists of
lower-case alphanumerics and spaces only, where the round-trip is the
identity, so it is elided there.  `REGEXP_LIKE` is an external Snowflake
builtin; its semantics is abstracted as a function parameter `rx : RegexFn`
applied to the raw term, which no claim inspects, so the literal round-trip
of the regex branches is absorbed into that abstraction.
-/

namespace CourseSearch

/-! ## Characters (ASCII model) -/

/-- ASCII lower-casing, the fragment of Python `str.lower` and SQL `LOWER`
relevant to the `[A-Za-z0-9]` / `[a-z0-9]` character classes the code uses. -/
def lowerC (c : Char) : Char :=
  if 65 ≤ c.toNat ∧ c.toNat ≤ 90 then Char.ofNat (c.toNat + 32) else c

/-- Membership in the regex class `[A-Za-z0-9]` from `normalize_term_to_phrase`. -/
def isAlnum (c : Char) : Bool :=
  decide ((65 ≤ c.toNat ∧ c.toNat ≤ 90) ∨ (97 ≤ c.toNat ∧ c.toNat ≤ 122) ∨
    (48 ≤ c.toNat ∧ c.toNat ≤ 57))

/-- Membership in the regex class `[a-z0-9]` from the `NORM_TITLE` / `NORM_DESC`
SQL expressions. -/
def isLowAlnum (c : Char) : Bool :=
  decide ((97 ≤ c.toNat ∧ c.toNat ≤ 122) ∨ (48 ≤ c.toNat ∧ c.toNat ≤ 57))

/-- ASCII whitespace stripped by Python `str.strip` (space, tab, LF, VT, FF, CR). -/
def isWS (c : Char) : Bool :=
  decide (c.toNat = 32 ∨ c.toNat = 9 ∨ c.toNat = 10 ∨ c.toNat = 11 ∨
    c.toNat = 12 ∨ c.toNat = 13)

/-! ## Generic list-of-characters operations -/

/-- Join a list of words with single spaces (Python `" ".join`). -/
def joinSpace : List (List Char) → List Char
  | [] => []
  | [t] => t
  | t :: ts => t ++ ' ' :: joinSpace ts

/-- Accumulator-style scanner extracting maximal runs of characters satisfying
`p` (the semantics of `re.findall` with a `[...]+` character-class pattern).
`cur` is the reversed current run. -/
def tokensAux (p : Char → Bool) (cur : List Char) : List Char → List (List Char)
  | [] => if cur.isEmpty then [] else [cur.reverse]
  | c :: cs =>
    if p c then tokensAux p (c :: cur) cs
    else if cur.isEmpty then tokensAux p [] cs
    else cur.reverse :: tokensAux p [] cs

/-- Maximal runs of characters satisfying `p`. -/
def tokens (p : Char → Bool) (l : List Char) : List (List Char) :=
  tokensAux p [] l

/-- Scanner for SQL `REGEXP_REPLACE(s, '[^a-z0-9]+', ' ')`: every maximal run
of characters outside `[a-z0-9]` becomes a single space.  `inRun` records
whether the space for the current separator run was already emitted. -/
def collapseAux (inRun : Bool) : List Char → List Char
  | [] => []
  | c :: cs =>
    if isLowAlnum c then c :: collapseAux false cs
    else if inRun then collapseAux true cs
    else ' ' :: collapseAux true cs

/-- SQL `REGEXP_REPLACE(s, '[^a-z0-9]+', ' ')`. -/
def collapseNonAlnum (l : List Char) : List Char :=
  collapseAux false l

/-- Drop leading spaces. -/
def ltrimSp (l : List Char) : List Char :=
  l.dropWhile (fun c => c == ' ')

/-- Drop trailing spaces. -/
def rtrimSp : List Char → List Char
  | [] => []
  | c :: cs =>
    if (rtrimSp cs).isEmpty then (if c == ' ' then [] else [c]) else c :: rtrimSp cs

/-- Python `str.strip` (ASCII whitespace model). -/
def pyStrip (l : List Char) : List Char :=
  ((l.dropWhile isWS).reverse.dropWhile isWS).reverse

/-- `pre` is a prefix of the second list. -/
def isPrefOf : List Char → List Char → Bool
  | [], _ => true
  | _ :: _, [] => false
  | a :: as, b :: bs => a == b && isPrefOf as bs

/-- `pat` occurs contiguously somewhere inside the second list. -/
def hasSubstr (pat : List Char) : List Char → Bool
  | [] => pat.isEmpty
  | c :: cs => isPrefOf pat (c :: cs) || hasSubstr pat cs

/-- All suffixes of a list, the list itself and `[]` included. -/
def suffixes : List Char → List (List Char)
  | [] => [[]]
  | c :: cs => (c :: cs) :: suffixes cs

/-- SQL `LIKE` pattern matching: `%` matches any (possibly empty) run —
rendered as "some suffix of the text matches the rest of the pattern" —
`_` matches exactly one character, anything else matches itself.
(Snowflake `LIKE` has no escape character unless an `ESCAPE` clause is given;
the code gives none.) -/
def likeMatch : List Char → List Char → Bool
  | [], s => s.isEmpty
  | p :: ps, s =>
    if p == '%' then (suffixes s).any (fun s2 => likeMatch ps s2)
    else
      match s with
      | [] => false
      | c :: s2 => (p == '_' || p == c) && likeMatch ps s2

/-- The pattern contains no SQL `LIKE` wildcard. -/
def noWild (l : List Char) : Bool :=
  l.all (fun c => !(c == '%') && !(c == '_'))

/-! ## The term normalizer (from `normalize_term_to_phrase`) -/

/-- `normalize_term_to_phrase` from both iterations:
`" ".join(re.findall(r"[A-Za-z0-9]+", term.lower()))`. -/
def normalize_term_to_phrase (term : List Char) : List Char :=
  joinSpace (tokens isAlnum (term.map lowerC))

/-! ## Rows, scopes, and the per-term predicates -/

/-- One row of the queried view, restricted to the columns the WHERE clause
and the projection reference. -/
structure Row where
  title : List Char
  description : List Char
  career_label : List Char
  college : List Char
  subject_code : List Char
  course_number : List Char

/-- The `st.radio("Search in", ["Title", "Description", "Both"])` selector. -/
inductive Scope where
  | Title : Scope
  | Description : Scope
  | Both : Scope

/-- `scope in ("Title", "Both")`. -/
def scopeInTitle : Scope → Bool
  | Scope.Title => true
  | Scope.Description => false
  | Scope.Both => true

/-- `scope in ("Description", "Both")`. -/
def scopeInDesc : Scope → Bool
  | Scope.Title => false
  | Scope.Description => true
  | Scope.Both => true

/-- Semantics of Snowflake `REGEXP_LIKE(subject, pattern, 'i')`, abstracted:
an arbitrary function of the raw term and the field text.  The builder passes
the term through verbatim, so no claim depends on what this function does. -/
def RegexFn : Type :=
  List Char → List Char → Bool

/-- A concrete (trivial) instance of `RegexFn`, used to instantiate theorems
at concrete inputs. -/
def dummyRx : RegexFn :=
  fun _ _ => false

/-- Semantics of the SQL expression `NORM_TITLE =
CONCAT(' ', REGEXP_REPLACE(LOWER(title), '[^a-z0-9]+', ' '), ' ')`
applied to a row. -/
def NORM_TITLE (r : Row) : List Char :=
  ' ' :: collapseNonAlnum (r.title.map lowerC) ++ [' ']

/-- Semantics of `NORM_DESC`, the same expression over `description`. -/
def NORM_DESC (r : Row) : List Char :=
  ' ' :: collapseNonAlnum (r.description.map lowerC) ++ [' ']

/-- The smart-mode LIKE pattern `f"% {phrase} %"` (with the leading/trailing
`%` wildcards of `LIKE '...'` containment). -/
def smartPat (phrase : List Char) : List Char :=
  '%' :: ' ' :: phrase ++ [' ', '%']

/-- `preds_for_term` of v1.4.2: smart tokenized matching unless `use_regex`.
Each returned entry is the denotation of one emitted SQL condition. -/
def preds_for_term (rx : RegexFn) (use_regex : Bool) (scope : Scope)
    (term : List Char) : List (Row → Bool) :=
  if !use_regex then
    let phrase := normalize_term_to_phrase term
    if phrase.isEmpty then []
    else
      (if scopeInTitle scope then
        [fun r => likeMatch (smartPat phrase) (NORM_TITLE r)] else []) ++
      (if scopeInDesc scope then
        [fun r => likeMatch (smartPat phrase) (NORM_DESC r)] else [])
  else
    (if scopeInTitle scope then [fun r => rx term r.title] else []) ++
    (if scopeInDesc scope then [fun r => rx term r.description] else [])

/-- The compiled per-term predicate of v1.4.2: the `" OR "`-join of
`preds_for_term`. -/
def termMatches (rx : RegexFn) (use_regex : Bool) (scope : Scope)
    (term : List Char) (r : Row) : Bool :=
  (preds_for_term rx use_regex scope term).any (fun p => p r)

/-- The single-quote character (codepoint 39). -/
def quoteC : Char :=
  Char.ofNat 39

/-- The backslash character (codepoint 92). -/
def backslashC : Char :=
  Char.ofNat 92

/-- `esc_sql` from both iterations: double every single quote
(`s.replace("'", "''")`). -/
def esc_sql : List Char → List Char
  | [] => []
  | c :: cs => if c = quoteC then quoteC :: quoteC :: esc_sql cs else c :: esc_sql cs

/-- The character a Snowflake single-character backslash escape denotes:
`\b \t \n \f \r \0` produce the corresponding control character; for any
other character (including `'`, `"` and `\` themselves) the escaped character
stands for itself, i.e. the backslash is dropped. -/
def escMap (c : Char) : Char :=
  if c = 'b' then Char.ofNat 8
  else if c = 't' then Char.ofNat 9
  else if c = 'n' then Char.ofNat 10
  else if c = 'f' then Char.ofNat 12
  else if c = 'r' then Char.ofNat 13
  else if c = '0' then Char.ofNat 0
  else c

/-- Decoding of the body of a Snowflake single-quoted string literal: a
doubled single quote denotes one single quote (a lone single quote would end
the literal — `esc_sql` guarantees the emitted body never contains one), and
a backslash escapes the next character via `escMap`.  Multi-character
escapes (`\uXXXX` Unicode) are outside this ASCII model; no theorem depends
on any backslash branch — claim C10's containment statement assumes a
backslash-free term, and a trailing lone backslash (which in Snowflake would
escape the closing quote of a then-malformed literal) decodes to nothing. -/
def parseSqlLiteral : List Char → List Char
  | [] => []
  | [c] => if c = backslashC then [] else if c = quoteC then [] else [c]
  | c :: d :: rest =>
    if c = backslashC then escMap d :: parseSqlLiteral rest
    else if c = quoteC then
      (if d = quoteC then quoteC :: parseSqlLiteral rest else [])
    else c :: parseSqlLiteral (d :: rest)

/-- The term contains no backslash (so splicing it into a string literal is
escape-free). -/
def noBackslash (l : List Char) : Bool :=
  l.all (fun c => !(c == backslashC))

/-- `preds_for_term` of v1.3.2: smart matching only when the smart toggle is
on and the regex toggle is off; raw regex when the regex toggle is on; and
otherwise the plain-contains fallback `LOWER(field) LIKE LOWER('%{esc}%')`,
whose runtime pattern is the SQL-literal decoding of the spliced text. -/
def preds_for_term_v132 (rx : RegexFn) (smart_token_mode use_regex : Bool)
    (scope : Scope) (term : List Char) : List (Row → Bool) :=
  if smart_token_mode && !use_regex then
    let phrase := normalize_term_to_phrase term
    if phrase.isEmpty then []
    else
      (if scopeInTitle scope then
        [fun r => likeMatch (smartPat phrase) (NORM_TITLE r)] else []) ++
      (if scopeInDesc scope then
        [fun r => likeMatch (smartPat phrase) (NORM_DESC r)] else [])
  else if use_regex then
    (if scopeInTitle scope then [fun r => rx term r.title] else []) ++
    (if scopeInDesc scope then [fun r => rx term r.description] else [])
  else
    (if scopeInTitle scope then
      [fun r => likeMatch ((parseSqlLiteral ('%' :: esc_sql term ++ ['%'])).map lowerC)
        (r.title.map lowerC)]
     else []) ++
    (if scopeInDesc scope then
      [fun r => likeMatch ((parseSqlLiteral ('%' :: esc_sql term ++ ['%'])).map lowerC)
        (r.description.map lowerC)]
     else [])

/-- The compiled per-term predicate of v1.3.2. -/
def termMatches_v132 (rx : RegexFn) (smart_token_mode use_regex : Bool)
    (scope : Scope) (term : List Char) (r : Row) : Bool :=
  (preds_for_term_v132 rx smart_token_mode use_regex scope term).any (fun p => p r)

/-! ## Course-number parsing and the range / filter predicates -/

def digitsToNatAux (acc : Nat) : List Char → Option Nat
  | [] => some acc
  | c :: cs =>
    if 48 ≤ c.toNat ∧ c.toNat ≤ 57 then digitsToNatAux (acc * 10 + (c.toNat - 48)) cs
    else none

/-- Value of a non-empty all-digit string. -/
def digitsToNat : List Char → Option Nat
  | [] => none
  | c :: cs => digitsToNatAux 0 (c :: cs)

/-- Semantics of Snowflake `TRY_TO_NUMBER(s)` on the integer-literal fragment
(optional sign, then digits): `some` of the value when `s` parses, `none`
(SQL NULL) otherwise.  Decimal-point inputs are outside this model; the
claims only distinguish integer-parseable from non-parseable text. -/
def try_to_number (s : List Char) : Option Int :=
  match s with
  | [] => none
  | c :: cs =>
    if c = '-' then (digitsToNat cs).map (fun n => -(n : Int))
    else if c = '+' then (digitsToNat cs).map (fun n => (n : Int))
    else (digitsToNat (c :: cs)).map (fun n => (n : Int))

/-- The unconditional clause
`(TRY_TO_NUMBER(course_number) BETWEEN low_num AND high_num)`:
a NULL comparison is not TRUE, so unparseable course numbers are excluded. -/
def rangePred (low high : Int) (r : Row) : Bool :=
  match try_to_number r.course_number with
  | some n => decide (low ≤ n ∧ n ≤ high)
  | none => false

/-- SQL `field IN ('v1', 'v2', ...)`. -/
def inPred (vals : List (List Char)) (field : List Char) : Bool :=
  decide (field ∈ vals)

/-! ## The WHERE-clause builder (v1.4.2) -/

/-- The inputs the sidebar hands to the WHERE-clause construction
(the spec's SearchConfig, minus the row limit, which never reaches the
predicate). -/
structure SearchConfig where
  terms : List (List Char)
  match_all : Bool
  use_regex : Bool
  scope : Scope
  sel_career : List (List Char)
  sel_college : List (List Char)
  sel_subject : List (List Char)
  low_num : Int
  high_num : Int

/-- The `per_term_groups` list: one OR-group per term whose `preds_for_term`
is non-empty, in term order. -/
def per_term_groups (rx : RegexFn) (use_regex : Bool) (scope : Scope)
    (terms : List (List Char)) : List (Row → Bool) :=
  terms.filterMap (fun t =>
    let p := preds_for_term rx use_regex scope t
    if p.isEmpty then none else some (fun r => p.any (fun q => q r)))

/-- The `where_clauses` list of v1.4.2, as row predicates: the optional term
group (AND/OR across groups by `match_all`), the three optional `IN` filters,
and the unconditional range clause. -/
def where_clauses (rx : RegexFn) (cfg : SearchConfig) : List (Row → Bool) :=
  (if cfg.terms.isEmpty then []
   else
     let groups := per_term_groups rx cfg.use_regex cfg.scope cfg.terms
     if groups.isEmpty then []
     else [fun r => if cfg.match_all then groups.all (fun g => g r)
                    else groups.any (fun g => g r)]) ++
  (if cfg.sel_career.isEmpty then []
   else [fun r => inPred cfg.sel_career r.career_label]) ++
  (if cfg.sel_college.isEmpty then []
   else [fun r => inPred cfg.sel_college r.college]) ++
  (if cfg.sel_subject.isEmpty then []
   else [fun r => inPred cfg.sel_subject r.subject_code]) ++
  [rangePred cfg.low_num cfg.high_num]

/-- The final compiled predicate: `" AND ".join(where_clauses)`. -/
def buildPred (rx : RegexFn) (cfg : SearchConfig) (r : Row) : Bool :=
  (where_clauses rx cfg).all (fun p => p r)

/-! ## The term-set mutator -/

/-- Split the raw text on `,` keeping empty pieces (Python `str.split(",")`). -/
def splitOnComma : List Char → List (List Char)
  | [] => [[]]
  | c :: cs =>
    if c = ',' then [] :: splitOnComma cs
    else
      match splitOnComma cs with
      | [] => [[c]]
      | p :: ps => (c :: p) :: ps

/-- `split_terms` from both iterations: empty input gives no pieces; otherwise
replace `|` by `,`, split on `,`, strip each piece, drop empty pieces. -/
def split_terms (s : List Char) : List (List Char) :=
  if s.isEmpty then []
  else
    ((splitOnComma (s.map (fun c => if c = '|' then ',' else c))).map pyStrip).filter
      (fun p => !p.isEmpty)

/-- `add_terms_to_state` of v1.4.2: append each stripped non-empty item that
is not already present (case-sensitive exact match), preserving order. -/
def add_terms_to_state : List (List Char) → List (List Char) → List (List Char)
  | terms, [] => terms
  | terms, t :: rest =>
    let t2 := pyStrip t
    if t2 ≠ [] ∧ t2 ∉ terms then add_terms_to_state (terms ++ [t2]) rest
    else add_terms_to_state terms rest

/-- The spec's `addTerms(rawInput)` operation: `add_terms_to_state(split_terms(raw))`
on the current term list. -/
def addTerms (raw : List Char) (terms : List (List Char)) : List (List Char) :=
  add_terms_to_state terms (split_terms raw)

/-- Python `list.remove(t)` as used by the chip buttons: removes the first
occurrence of `t`; `none` models the `ValueError` raised when `t` is absent. -/
def removeFirst (t : List Char) : List (List Char) → Option (List (List Char))
  | [] => none
  | x :: xs => if x = t then some xs else (removeFirst t xs).map (fun r => x :: r)

/-! ## The numeric-domain fallback -/

/-- `_to_int_safe(x, default)` restricted to the values the min/max query can
produce: a numeric value or SQL NULL (`none`); NULL and unconvertible inputs
give the default. -/
def _to_int_safe (x : Option Int) (dflt : Int) : Int :=
  x.getD dflt

/-- The v1.4.2 domain computation: defaults 0 / 9999 for missing bounds, then
the degenerate-domain fallback `if num_min >= num_max: (0, 9999)`.  (The
code's `num_min is None or num_max is None` test is dead: `_to_int_safe` was
already given non-None defaults.) -/
def computeRange (raw_min raw_max : Option Int) : Int × Int :=
  let num_min := _to_int_safe raw_min 0
  let num_max := _to_int_safe raw_max 9999
  if num_min ≥ num_max then (0, 9999) else (num_min, num_max)

/-! ## Spec-side definition for the refinement claim C6 -/

/-- A row with the given title, description, and course number, and empty
categorical fields; concrete test rows for the claims. -/
def mkRow (ti de cn : List Char) : Row :=
  { title := ti, description := de, career_label := [], college := [],
    subject_code := [], course_number := cn }

/-- Modelled from the spec's words (§4.1): "extract maximal runs of ASCII
letters/digits ...; lower-case each run; join the runs with a single space."
To be compared with the code's `normalize_term_to_phrase`, which lower-cases
first and then extracts runs. -/
def specNormalizePhrase (s : List Char) : List Char :=
  joinSpace ((tokens isAlnum s).map (List.map lowerC))

/-! ## Character lemmas -/

theorem toNat_ofNat_valid (n : Nat) (h : n.isValidChar) : (Char.ofNat n).toNat = n := by
  simp [Char.ofNat, h, Char.ofNatAux, Char.toNat]
  rfl

theorem toNat_lowerC (c : Char) :
    (lowerC c).toNat = if 65 ≤ c.toNat ∧ c.toNat ≤ 90 then c.toNat + 32 else c.toNat := by
  unfold lowerC
  split
  case isTrue h => exact toNat_ofNat_valid _ (Or.inl (by omega))
  case isFalse h => rfl

theorem lowerC_eq_self (c : Char) (h : ¬(65 ≤ c.toNat ∧ c.toNat ≤ 90)) : lowerC c = c :=
  if_neg h

theorem lowerC_lowerC (c : Char) : lowerC (lowerC c) = lowerC c := by
  have h := toNat_lowerC c
  by_cases h2 : 65 ≤ c.toNat ∧ c.toNat ≤ 90
  · rw [if_pos h2] at h
    exact lowerC_eq_self _ (by omega)
  · rw [lowerC_eq_self c h2]
    exact lowerC_eq_self c h2

theorem isAlnum_lowerC (c : Char) : isAlnum (lowerC c) = isAlnum c := by
  unfold isAlnum
  rw [toNat_lowerC]
  by_cases h : 65 ≤ c.toNat ∧ c.toNat ≤ 90
  · rw [if_pos h]
    simp only [decide_eq_decide]
    omega
  · rw [if_neg h]

theorem isLowAlnum_lowerC (c : Char) : isLowAlnum (lowerC c) = isAlnum c := by
  unfold isLowAlnum isAlnum
  rw [toNat_lowerC]
  by_cases h : 65 ≤ c.toNat ∧ c.toNat ≤ 90
  · rw [if_pos h]
    simp only [decide_eq_decide]
    omega
  · rw [if_neg h]
    simp only [decide_eq_decide]
    tauto

theorem lowerC_of_isLowAlnum (c : Char) (h : isLowAlnum c = true) : lowerC c = c := by
  unfold isLowAlnum at h
  simp only [decide_eq_true_eq] at h
  exact lowerC_eq_self c (by omega)

theorem ne_of_toNat_ne (c d : Char) (h : c.toNat ≠ d.toNat) : c ≠ d :=
  fun he => h (congrArg Char.toNat he)

theorem isAlnum_not_wild (c : Char) (h : isAlnum c = true) : (c == '%') = false ∧ (c == '_') = false := by
  unfold isAlnum at h
  simp only [decide_eq_true_eq] at h
  have e1 : ('%').toNat = 37 := rfl
  have e2 : ('_').toNat = 95 := rfl
  constructor
  · exact beq_eq_false_iff_ne.mpr (ne_of_toNat_ne c '%' (by omega))
  · exact beq_eq_false_iff_ne.mpr (ne_of_toNat_ne c '_' (by omega))

theorem isLowAlnum_ne_space (c : Char) (h : isLowAlnum c = true) : (c == ' ') = false := by
  unfold isLowAlnum at h
  simp only [decide_eq_true_eq] at h
  have e1 : (' ').toNat = 32 := rfl
  exact beq_eq_false_iff_ne.mpr (ne_of_toNat_ne c ' ' (by omega))

theorem lowerC_not_wild (c : Char) (h1 : (c == '%') = false) (h2 : (c == '_') = false) :
    (lowerC c == '%') = false ∧ (lowerC c == '_') = false := by
  rw [beq_eq_false_iff_ne] at h1 h2
  have e1 : ('%').toNat = 37 := rfl
  have e2 : ('_').toNat = 95 := rfl
  by_cases h : 65 ≤ c.toNat ∧ c.toNat ≤ 90
  · have ht := toNat_lowerC c
    rw [if_pos h] at ht
    constructor
    · exact beq_eq_false_iff_ne.mpr (ne_of_toNat_ne _ '%' (by omega))
    · exact beq_eq_false_iff_ne.mpr (ne_of_toNat_ne _ '_' (by omega))
  · rw [lowerC_eq_self c h]
    exact ⟨beq_eq_false_iff_ne.mpr h1, beq_eq_false_iff_ne.mpr h2⟩

/-! ## LIKE-pattern and substring lemmas -/

theorem isPrefOf_nil (pat : List Char) : isPrefOf pat [] = pat.isEmpty := by
  cases pat <;> rfl

theorem likeMatch_nil_star (s : List Char) :
    (suffixes s).any (fun s2 => likeMatch [] s2) = true := by
  induction s with
  | nil => rfl
  | cons c cs ih => simp only [suffixes, List.any_cons, ih, Bool.or_true]

theorem likeMatch_lit (lit : List Char) (hw : noWild lit = true) (s : List Char) :
    likeMatch (lit ++ ['%']) s = isPrefOf lit s := by
  induction lit generalizing s with
  | nil =>
    show likeMatch ['%'] s = isPrefOf [] s
    simp only [likeMatch, isPrefOf]
    exact likeMatch_nil_star s
  | cons a as ih =>
    have hw2 : noWild as = true := by
      simp only [noWild, List.all_cons, Bool.and_eq_true] at hw
      exact hw.2
    have ha : (a == '%') = false ∧ (a == '_') = false := by
      simp only [noWild, List.all_cons, Bool.and_eq_true, Bool.not_eq_true',
        Bool.and_eq_true] at hw
      exact ⟨hw.1.1, hw.1.2⟩
    cases s with
    | nil =>
      show likeMatch (a :: (as ++ ['%'])) [] = isPrefOf (a :: as) []
      simp only [likeMatch, isPrefOf, ha.1, Bool.false_eq_true, if_false]
    | cons c s2 =>
      show likeMatch (a :: (as ++ ['%'])) (c :: s2) = isPrefOf (a :: as) (c :: s2)
      simp only [likeMatch, isPrefOf, ha.1, ha.2, Bool.false_eq_true, if_false,
        Bool.false_or, ih hw2 s2]

theorem hasSubstr_eq_any_suffixes (lit s : List Char) :
    hasSubstr lit s = (suffixes s).any (fun s2 => isPrefOf lit s2) := by
  induction s with
  | nil => simp only [hasSubstr, suffixes, List.any_cons, List.any_nil,
      Bool.or_false, isPrefOf_nil]
  | cons c cs ih => simp only [hasSubstr, suffixes, List.any_cons, ih]

theorem any_congrF {α : Type} (l : List α) (f g : α → Bool) (h : ∀ x ∈ l, f x = g x) :
    l.any f = l.any g := by
  induction l with
  | nil => rfl
  | cons a as ih =>
    simp only [List.any_cons, h a (List.mem_cons_self a as),
      ih (fun x hx => h x (List.mem_cons_of_mem a hx))]

theorem likeMatch_contains (lit : List Char) (hw : noWild lit = true) (s : List Char) :
    likeMatch ('%' :: (lit ++ ['%'])) s = hasSubstr lit s := by
  have h : likeMatch ('%' :: (lit ++ ['%'])) s
      = (suffixes s).any (fun s2 => likeMatch (lit ++ ['%']) s2) := by
    simp [likeMatch]
  rw [h, hasSubstr_eq_any_suffixes]
  exact any_congrF _ _ _ (fun s2 _ => likeMatch_lit lit hw s2)

/-! ## Tokenizer lemmas -/

theorem tokensAux_nil (p : Char → Bool) (cur : List Char) :
    tokensAux p cur [] = if cur.isEmpty then [] else [cur.reverse] := rfl

theorem tokensAux_cons_pos (p : Char → Bool) (cur : List Char) (c : Char) (cs : List Char)
    (h : p c = true) : tokensAux p cur (c :: cs) = tokensAux p (c :: cur) cs := by
  simp [tokensAux, h]

theorem tokensAux_cons_neg_nil (p : Char → Bool) (c : Char) (cs : List Char)
    (h : p c = false) : tokensAux p [] (c :: cs) = tokensAux p [] cs := by
  simp [tokensAux, h]

theorem tokensAux_cons_neg (p : Char → Bool) (cur : List Char) (c : Char) (cs : List Char)
    (h : p c = false) (hc : cur ≠ []) :
    tokensAux p cur (c :: cs) = cur.reverse :: tokensAux p [] cs := by
  simp [tokensAux, h, hc]

theorem tokensAux_congr (p q : Char → Bool) :
    ∀ (l cur : List Char), (∀ c ∈ l, p c = q c) → tokensAux p cur l = tokensAux q cur l := by
  intro l
  induction l with
  | nil => intro cur _; rfl
  | cons c cs ih =>
    intro cur h
    have hc := h c (List.mem_cons_self c cs)
    have ht : ∀ x ∈ cs, p x = q x := fun x hx => h x (List.mem_cons_of_mem c hx)
    cases hq : q c with
    | true =>
      rw [tokensAux_cons_pos p cur c cs (hc.trans hq), tokensAux_cons_pos q cur c cs hq,
        ih (c :: cur) ht]
    | false =>
      by_cases hne : cur = []
      · subst hne
        rw [tokensAux_cons_neg_nil p c cs (hc.trans hq), tokensAux_cons_neg_nil q c cs hq,
          ih [] ht]
      · rw [tokensAux_cons_neg p cur c cs (hc.trans hq) hne,
          tokensAux_cons_neg q cur c cs hq hne, ih [] ht]

theorem tokensAux_all (p : Char → Bool) :
    ∀ (l cur : List Char), (∀ c ∈ cur, p c = true) →
      ∀ t ∈ tokensAux p cur l, t ≠ [] ∧ ∀ c ∈ t, p c = true := by
  intro l
  induction l with
  | nil =>
    intro cur hcur t ht
    rw [tokensAux_nil] at ht
    by_cases hc : cur = []
    · subst hc
      simp at ht
    · rw [if_neg (by simpa [List.isEmpty_iff] using hc), List.mem_singleton] at ht
      subst ht
      refine ⟨by simpa [List.reverse_eq_nil_iff] using hc,
        fun c hcm => hcur c (List.mem_reverse.mp hcm)⟩
  | cons c cs ih =>
    intro cur hcur t ht
    cases hp : p c with
    | true =>
      rw [tokensAux_cons_pos p cur c cs hp] at ht
      exact ih (c :: cur)
        (fun x hx => (List.mem_cons.mp hx).elim (fun he => he ▸ hp) (hcur x)) t ht
    | false =>
      by_cases hc : cur = []
      · subst hc
        rw [tokensAux_cons_neg_nil p c cs hp] at ht
        exact ih [] (fun x hx => absurd hx (List.not_mem_nil x)) t ht
      · rw [tokensAux_cons_neg p cur c cs hp hc] at ht
        rcases List.mem_cons.mp ht with he | hm
        · subst he
          refine ⟨by simpa [List.reverse_eq_nil_iff] using hc,
            fun x hx => hcur x (List.mem_reverse.mp hx)⟩
        · exact ih [] (fun x hx => absurd hx (List.not_mem_nil x)) t hm

theorem tokensAux_append_run (p : Char → Bool) :
    ∀ (t rest cur : List Char), (∀ c ∈ t, p c = true) →
      tokensAux p cur (t ++ rest) = tokensAux p (t.reverse ++ cur) rest := by
  intro t
  induction t with
  | nil => intro rest cur _; simp
  | cons c cs ih =>
    intro rest cur h
    have hc := h c (List.mem_cons_self c cs)
    have ht : ∀ x ∈ cs, p x = true := fun x hx => h x (List.mem_cons_of_mem c hx)
    rw [List.cons_append, tokensAux_cons_pos p cur c (cs ++ rest) hc,
      ih rest (c :: cur) ht, List.reverse_cons, List.append_assoc,
      List.singleton_append]

theorem tokensAux_mem_chars (p : Char → Bool) :
    ∀ (l cur t : List Char) (c : Char), t ∈ tokensAux p cur l → c ∈ t → c ∈ cur ∨ c ∈ l := by
  intro l
  induction l with
  | nil =>
    intro cur t c ht hc
    rw [tokensAux_nil] at ht
    by_cases he : cur = []
    · subst he
      simp at ht
    · rw [if_neg (by simpa [List.isEmpty_iff] using he), List.mem_singleton] at ht
      subst ht
      exact Or.inl (List.mem_reverse.mp hc)
  | cons a cs ih =>
    intro cur t c ht hc
    cases hp : p a with
    | true =>
      rw [tokensAux_cons_pos p cur a cs hp] at ht
      rcases ih (a :: cur) t c ht hc with hm | hm
      · rcases List.mem_cons.mp hm with he | hm2
        · exact Or.inr (he ▸ List.mem_cons_self a cs)
        · exact Or.inl hm2
      · exact Or.inr (List.mem_cons_of_mem a hm)
    | false =>
      by_cases he : cur = []
      · subst he
        rw [tokensAux_cons_neg_nil p a cs hp] at ht
        rcases ih [] t c ht hc with hm | hm
        · exact absurd hm (List.not_mem_nil c)
        · exact Or.inr (List.mem_cons_of_mem a hm)
      · rw [tokensAux_cons_neg p cur a cs hp he] at ht
        rcases List.mem_cons.mp ht with h2 | h2
        · subst h2
          exact Or.inl (List.mem_reverse.mp hc)
        · rcases ih [] t c h2 hc with hm | hm
          · exact absurd hm (List.not_mem_nil c)
          · exact Or.inr (List.mem_cons_of_mem a hm)

theorem tokens_join (p : Char → Bool) (hsp : p ' ' = false) :
    ∀ ts : List (List Char), (∀ t ∈ ts, t ≠ [] ∧ ∀ c ∈ t, p c = true) →
      tokens p (joinSpace ts) = ts := by
  intro ts
  induction ts with
  | nil => intro _; rfl
  | cons t ts ih =>
    intro h
    have ht := h t (List.mem_cons_self t ts)
    have hrev : t.reverse ≠ [] := by
      simpa [List.reverse_eq_nil_iff] using ht.1
    cases ts with
    | nil =>
      show tokens p t = [t]
      unfold tokens
      have h0 : tokensAux p [] (t ++ []) = [t] := by
        rw [tokensAux_append_run p t [] [] ht.2, List.append_nil, tokensAux_nil,
          if_neg (by simpa [List.isEmpty_iff] using hrev), List.reverse_reverse]
      rw [List.append_nil] at h0
      exact h0
    | cons t2 ts2 =>
      show tokens p (t ++ ' ' :: joinSpace (t2 :: ts2)) = t :: t2 :: ts2
      unfold tokens
      rw [tokensAux_append_run p t (' ' :: joinSpace (t2 :: ts2)) [] ht.2, List.append_nil,
        tokensAux_cons_neg p t.reverse ' ' (joinSpace (t2 :: ts2)) hsp hrev,
        List.reverse_reverse]
      exact congrArg (t :: ·) (ih (fun x hx => h x (List.mem_cons_of_mem t hx)))

theorem tokensAux_map_lowerC :
    ∀ (l cur : List Char),
      tokensAux isAlnum (cur.map lowerC) (l.map lowerC)
        = (tokensAux isAlnum cur l).map (List.map lowerC) := by
  intro l
  induction l with
  | nil =>
    intro cur
    simp only [List.map_nil, tokensAux_nil]
    by_cases he : cur = []
    · subst he
      rfl
    · have he2 : cur.map lowerC ≠ [] := by
        simpa [List.map_eq_nil_iff] using he
      rw [if_neg (by simpa [List.isEmpty_iff] using he2),
        if_neg (by simpa [List.isEmpty_iff] using he), List.map_cons, List.map_nil,
        List.map_reverse]
  | cons c cs ih =>
    intro cur
    rw [List.map_cons]
    cases hp : isAlnum c with
    | true =>
      rw [tokensAux_cons_pos isAlnum cur c cs hp,
        tokensAux_cons_pos isAlnum (cur.map lowerC) (lowerC c) (cs.map lowerC)
          ((isAlnum_lowerC c).trans hp)]
      have h0 : lowerC c :: cur.map lowerC = (c :: cur).map lowerC := rfl
      rw [h0, ih (c :: cur)]
    | false =>
      have hp2 : isAlnum (lowerC c) = false := (isAlnum_lowerC c).trans hp
      by_cases he : cur = []
      · subst he
        rw [List.map_nil, tokensAux_cons_neg_nil isAlnum c cs hp,
          tokensAux_cons_neg_nil isAlnum (lowerC c) (cs.map lowerC) hp2]
        simpa using ih []
      · have he2 : cur.map lowerC ≠ [] := by
          simpa [List.map_eq_nil_iff] using he
        rw [tokensAux_cons_neg isAlnum cur c cs hp he,
          tokensAux_cons_neg isAlnum (cur.map lowerC) (lowerC c) (cs.map lowerC) hp2 he2,
          List.map_cons, List.map_reverse]
        have h0 := ih []
        rw [List.map_nil] at h0
        rw [h0]

theorem mem_joinSpace :
    ∀ (ts : List (List Char)) (c : Char), c ∈ joinSpace ts →
      c = ' ' ∨ ∃ t, t ∈ ts ∧ c ∈ t := by
  intro ts
  induction ts with
  | nil => intro c hc; exact absurd hc (List.not_mem_nil c)
  | cons t ts ih =>
    intro c hc
    cases ts with
    | nil => exact Or.inr ⟨t, List.mem_singleton.mpr rfl, hc⟩
    | cons t2 ts2 =>
      rcases List.mem_append.mp hc with hm | hm
      · exact Or.inr ⟨t, List.mem_cons_self t _, hm⟩
      · rcases List.mem_cons.mp hm with he | hm2
        · exact Or.inl he
        · rcases ih c hm2 with he | ⟨u, hu, hcu⟩
          · exact Or.inl he
          · exact Or.inr ⟨u, List.mem_cons_of_mem t hu, hcu⟩

theorem map_eq_self_of (l : List Char) (f : Char → Char) (h : ∀ x ∈ l, f x = x) :
    l.map f = l := by
  induction l with
  | nil => rfl
  | cons a as ih =>
    simp only [List.map_cons, h a (List.mem_cons_self a as),
      ih (fun x hx => h x (List.mem_cons_of_mem a hx))]

/-! ## Normalizer facts -/

theorem normalize_chars (t : List Char) :
    ∀ c ∈ normalize_term_to_phrase t, c = ' ' ∨ isAlnum c = true := by
  intro c hc
  rcases mem_joinSpace _ c hc with he | ⟨u, hu, hcu⟩
  · exact Or.inl he
  · exact Or.inr ((tokensAux_all isAlnum (t.map lowerC) []
      (fun x hx => absurd hx (List.not_mem_nil x)) u hu).2 c hcu)

theorem noWild_iff (l : List Char) :
    noWild l = true ↔ ∀ c ∈ l, (c == '%') = false ∧ (c == '_') = false := by
  unfold noWild
  rw [List.all_eq_true]
  constructor
  · intro h c hc
    have := h c hc
    simp only [Bool.and_eq_true, Bool.not_eq_true'] at this
    exact this
  · intro h c hc
    simp only [Bool.and_eq_true, Bool.not_eq_true']
    exact h c hc

theorem noWild_padded_phrase (t : List Char) :
    noWild (' ' :: normalize_term_to_phrase t ++ [' ']) = true := by
  rw [noWild_iff]
  intro c hc
  have hsp : ((' ' : Char) == '%') = false ∧ ((' ' : Char) == '_') = false := by decide
  rcases List.mem_cons.mp hc with he | hm
  · subst he; exact hsp
  · rcases List.mem_append.mp hm with h2 | h2
    · rcases normalize_chars t c h2 with he | ha
      · subst he; exact hsp
      · exact isAlnum_not_wild c ha
    · rw [List.mem_singleton] at h2
      subst h2; exact hsp

theorem map_lowerC_normalize (s : List Char) :
    (normalize_term_to_phrase s).map lowerC = normalize_term_to_phrase s := by
  apply map_eq_self_of
  intro c hc
  rcases mem_joinSpace _ c hc with he | ⟨u, hu, hcu⟩
  · subst he
    decide
  · rcases tokensAux_mem_chars isAlnum (s.map lowerC) [] u c hu hcu with hm | hm
    · exact absurd hm (List.not_mem_nil c)
    · rcases List.mem_map.mp hm with ⟨c0, _, he⟩
      rw [← he]
      exact lowerC_lowerC c0

/-- C6: for every string, `normalize_term_to_phrase` returns the maximal runs
of ASCII letters/digits of the input, each lower-cased, joined by single
spaces (the spec-side `specNormalizePhrase`), and returns the empty string
when the input has no alphanumeric run; in particular
`normalize("Machine-Learning, AI!") = "machine learning ai"`,
`normalize("   ") = ""` and `normalize("") = ""`. -/
theorem claim_C6 :
    (∀ s : List Char, normalize_term_to_phrase s = specNormalizePhrase s)
    ∧ normalize_term_to_phrase "Machine-Learning, AI!".toList = "machine learning ai".toList
    ∧ normalize_term_to_phrase "   ".toList = []
    ∧ normalize_term_to_phrase "".toList = [] := by
  refine ⟨fun s => ?_, by decide, by decide, by decide⟩
  show joinSpace (tokensAux isAlnum [] (s.map lowerC))
      = joinSpace ((tokensAux isAlnum [] s).map (List.map lowerC))
  have h := tokensAux_map_lowerC s []
  rw [List.map_nil] at h
  rw [h]

/-- C7: `normalize_term_to_phrase` is idempotent: for every string `s`,
`normalize(normalize(s)) = normalize(s)`. -/
theorem claim_C7 :
    ∀ s : List Char,
      normalize_term_to_phrase (normalize_term_to_phrase s) = normalize_term_to_phrase s := by
  intro s
  show joinSpace (tokens isAlnum ((normalize_term_to_phrase s).map lowerC))
      = normalize_term_to_phrase s
  rw [map_lowerC_normalize s]
  have h2 : tokens isAlnum (normalize_term_to_phrase s)
      = tokens isAlnum (s.map lowerC) := by
    show tokens isAlnum (joinSpace (tokens isAlnum (s.map lowerC)))
        = tokens isAlnum (s.map lowerC)
    exact tokens_join isAlnum (by decide) _
      (tokensAux_all isAlnum (s.map lowerC) [] (fun x hx => absurd hx (List.not_mem_nil x)))
  rw [h2]
  rfl

/-! ## Smart-mode per-term predicate characterization -/

theorem termMatches_smart (rx : RegexFn) (term : List Char)
    (h : normalize_term_to_phrase term ≠ []) (scope : Scope) (r : Row) :
    termMatches rx false scope term r =
      ((scopeInTitle scope
          && hasSubstr (' ' :: normalize_term_to_phrase term ++ [' ']) (NORM_TITLE r))
        || (scopeInDesc scope
          && hasSubstr (' ' :: normalize_term_to_phrase term ++ [' ']) (NORM_DESC r))) := by
  have hlike : ∀ s : List Char,
      likeMatch (smartPat (normalize_term_to_phrase term)) s
        = hasSubstr (' ' :: normalize_term_to_phrase term ++ [' ']) s := by
    intro s
    have hpat : smartPat (normalize_term_to_phrase term)
        = '%' :: ((' ' :: normalize_term_to_phrase term ++ [' ']) ++ ['%']) := by
      simp [smartPat]
    rw [hpat]
    exact likeMatch_contains _ (noWild_padded_phrase term) s
  have hph : (normalize_term_to_phrase term).isEmpty = false := by
    cases hb : (normalize_term_to_phrase term).isEmpty
    · rfl
    · exact absurd (List.isEmpty_iff.mp hb) h
  unfold termMatches preds_for_term
  cases scope
  · simp [scopeInTitle, scopeInDesc, hph, hlike]
  · simp [scopeInTitle, scopeInDesc, hph, hlike]
  · simp [scopeInTitle, scopeInDesc, hph, hlike, List.any_append]

/-- C1: in smart matching mode (v1.4.2: regex toggle off), for every term
whose normalization is non-empty, the compiled per-term predicate holds on a
row exactly when the space-padded normalized scoped field contains the
substring `' <normalized term> '` — Title checks the title only, Description
the description only, Both is the OR of the two — and in particular for the
term "deep learning" with scope Both it matches a title normalizing to
contain " deep learning " but not "learning deep" (order) or "deeplearning"
(token boundary). -/
theorem claim_C1 :
    (∀ (rx : RegexFn) (term : List Char), normalize_term_to_phrase term ≠ [] →
      ∀ (scope : Scope) (r : Row),
        termMatches rx false scope term r =
          ((scopeInTitle scope
              && hasSubstr (' ' :: normalize_term_to_phrase term ++ [' ']) (NORM_TITLE r))
            || (scopeInDesc scope
              && hasSubstr (' ' :: normalize_term_to_phrase term ++ [' ']) (NORM_DESC r))))
    ∧ (∀ rx : RegexFn, termMatches rx false Scope.Both "deep learning".toList
        (mkRow "Intro to Deep-Learning!".toList [] []) = true)
    ∧ (∀ rx : RegexFn, termMatches rx false Scope.Both "deep learning".toList
        (mkRow "Learning Deep Structures".toList [] []) = false)
    ∧ (∀ rx : RegexFn, termMatches rx false Scope.Both "deep learning".toList
        (mkRow "DeepLearning Systems".toList [] []) = false) :=
  ⟨fun rx term h scope r => termMatches_smart rx term h scope r,
   fun _ => rfl, fun _ => rfl, fun _ => rfl⟩

/-- C1 witness: the characterization instantiated at the term "deep learning",
scope Both, and a concrete row. -/
theorem claim_C1_witness :
    termMatches dummyRx false Scope.Both "deep learning".toList
      (mkRow "Intro to Deep-Learning!".toList [] []) =
      ((scopeInTitle Scope.Both
          && hasSubstr (' ' :: normalize_term_to_phrase "deep learning".toList ++ [' '])
            (NORM_TITLE (mkRow "Intro to Deep-Learning!".toList [] [])))
        || (scopeInDesc Scope.Both
          && hasSubstr (' ' :: normalize_term_to_phrase "deep learning".toList ++ [' '])
            (NORM_DESC (mkRow "Intro to Deep-Learning!".toList [] [])))) :=
  claim_C1.1 dummyRx "deep learning".toList (by decide) Scope.Both
    (mkRow "Intro to Deep-Learning!".toList [] [])

/-! ## v1.3.2 fallback mode (C10) -/

theorem noWild_map_lowerC (term : List Char) (hw : noWild term = true) :
    noWild (term.map lowerC) = true := by
  rw [noWild_iff] at hw ⊢
  intro c hc
  rcases List.mem_map.mp hc with ⟨c0, hc0, he⟩
  subst he
  exact lowerC_not_wild c0 (hw c0 hc0).1 (hw c0 hc0).2

theorem parseSqlLiteral_cons_other (c : Char) (xs : List Char)
    (hb : c ≠ backslashC) (hq : c ≠ quoteC) :
    parseSqlLiteral (c :: xs) = c :: parseSqlLiteral xs := by
  cases xs with
  | nil => simp [parseSqlLiteral, hb, hq]
  | cons d rest => simp [parseSqlLiteral, hb, hq]

theorem parseSqlLiteral_cons_quote2 (xs : List Char) :
    parseSqlLiteral (quoteC :: quoteC :: xs) = quoteC :: parseSqlLiteral xs := by
  have hb : quoteC ≠ backslashC := by decide
  simp [parseSqlLiteral, hb]

theorem parseSqlLiteral_esc (t : List Char) (hb : noBackslash t = true) :
    ∀ rest, parseSqlLiteral (esc_sql t ++ rest) = t ++ parseSqlLiteral rest := by
  induction t with
  | nil => intro rest; rfl
  | cons c cs ih =>
    intro rest
    have hbc : c ≠ backslashC := by
      unfold noBackslash at hb
      rw [List.all_cons, Bool.and_eq_true, Bool.not_eq_true', beq_eq_false_iff_ne] at hb
      exact hb.1
    have hbcs : noBackslash cs = true := by
      unfold noBackslash at hb ⊢
      rw [List.all_cons, Bool.and_eq_true] at hb
      exact hb.2
    by_cases hq : c = quoteC
    · subst hq
      show parseSqlLiteral ((if quoteC = quoteC then quoteC :: quoteC :: esc_sql cs
          else quoteC :: esc_sql cs) ++ rest) = _
      rw [if_pos rfl, List.cons_append, List.cons_append, parseSqlLiteral_cons_quote2,
        ih hbcs rest, List.cons_append]
    · show parseSqlLiteral ((if c = quoteC then quoteC :: quoteC :: esc_sql cs
          else c :: esc_sql cs) ++ rest) = _
      rw [if_neg hq, List.cons_append, parseSqlLiteral_cons_other c _ hbc hq,
        ih hbcs rest, List.cons_append]

theorem pattern_parse (term : List Char) (hb : noBackslash term = true) :
    parseSqlLiteral ('%' :: (esc_sql term ++ ['%'])) = '%' :: (term ++ ['%']) := by
  rw [parseSqlLiteral_cons_other '%' _ (by decide) (by decide),
    parseSqlLiteral_esc term hb ['%']]
  rfl

/-- C10 counterexample: with both v1.3.2 toggles off the fallback is not
plain substring containment of the verbatim term — the term `100%` matches
the title `x100` (`%` acts as a LIKE wildcard) although `x100` does not
contain `100%` case-insensitively, and the wildcard-free term `a\z` matches
the title `az` (the Snowflake literal `'%a\z%'` decodes to the pattern
`%az%`) although `az` does not contain `a\z`. -/
theorem claim_C10_cex :
    (termMatches_v132 dummyRx false false Scope.Title "100%".toList
        (mkRow "x100".toList [] []) = true
      ∧ hasSubstr ("100%".toList.map lowerC) ("x100".toList.map lowerC) = false)
    ∧ (termMatches_v132 dummyRx false false Scope.Title "a\\z".toList
        (mkRow "az".toList [] []) = true
      ∧ hasSubstr ("a\\z".toList.map lowerC) ("az".toList.map lowerC) = false) :=
  ⟨⟨by decide, by decide⟩, ⟨by decide, by decide⟩⟩

/-- C10 (amended): in v1.3.2 with the smart-tokenized and raw-regex toggles
both off, each term contributes a third matching mode: a case-insensitive
`LOWER(field) LIKE LOWER('%{esc_sql(term)}%')` predicate over the scoped
field(s) — no normalization and no token-boundary requirement — whose
pattern is the Snowflake string-literal decoding of the spliced term; it is
exactly plain case-insensitive substring containment of the verbatim
(quote-escaped) term whenever the term contains no LIKE wildcard (`%` or
`_`) and no backslash (backslashes trigger literal escape processing). -/
theorem claim_C10 :
    ∀ (rx : RegexFn) (term : List Char), noWild term = true → noBackslash term = true →
      ∀ (scope : Scope) (r : Row),
        termMatches_v132 rx false false scope term r =
          ((scopeInTitle scope && hasSubstr (term.map lowerC) (r.title.map lowerC))
            || (scopeInDesc scope && hasSubstr (term.map lowerC) (r.description.map lowerC))) := by
  intro rx term hw hb scope r
  have hlow : lowerC '%' = '%' := by decide
  have hpat : (parseSqlLiteral ('%' :: (esc_sql term ++ ['%']))).map lowerC
      = '%' :: (term.map lowerC ++ ['%']) := by
    rw [pattern_parse term hb]
    simp [hlow]
  have hlike : ∀ s : List Char,
      likeMatch ((parseSqlLiteral ('%' :: (esc_sql term ++ ['%']))).map lowerC) s
        = hasSubstr (term.map lowerC) s := by
    intro s
    rw [hpat]
    exact likeMatch_contains _ (noWild_map_lowerC term hw) s
  unfold termMatches_v132 preds_for_term_v132
  cases scope
  · simp [scopeInTitle, scopeInDesc, hlike]
  · simp [scopeInTitle, scopeInDesc, hlike]
  · simp [scopeInTitle, scopeInDesc, hlike, List.any_append]

/-- C10 witness: the fallback-mode characterization instantiated at the
wildcard-free, backslash-free term "ai" and a concrete row. -/
theorem claim_C10_witness :
    termMatches_v132 dummyRx false false Scope.Title "ai".toList
        (mkRow "AI lab".toList [] []) =
      ((scopeInTitle Scope.Title
          && hasSubstr ("ai".toList.map lowerC) (("AI lab".toList).map lowerC))
        || (scopeInDesc Scope.Title
          && hasSubstr ("ai".toList.map lowerC) (([] : List Char).map lowerC))) :=
  claim_C10 dummyRx "ai".toList (by decide) (by decide) Scope.Title
    (mkRow "AI lab".toList [] [])

/-! ## Builder claims (C5, C8) -/

/-- C5: the predicate builder is a total function (it never raises); with an
empty `TermSet` — or one whose every term normalizes to empty in smart mode —
and empty filter selections, the term group and the categorical filters
contribute no clause and the final predicate reduces to the course-number
range predicate alone. -/
theorem claim_C5 (rx : RegexFn) (cfg : SearchConfig)
    (hca : cfg.sel_career = []) (hco : cfg.sel_college = []) (hsu : cfg.sel_subject = [])
    (ht : cfg.terms = []
      ∨ (cfg.use_regex = false ∧ ∀ t ∈ cfg.terms, normalize_term_to_phrase t = []))
    (r : Row) :
    buildPred rx cfg r = rangePred cfg.low_num cfg.high_num r := by
  have hterm : (if cfg.terms.isEmpty then ([] : List (Row → Bool))
      else
        let groups := per_term_groups rx cfg.use_regex cfg.scope cfg.terms
        if groups.isEmpty then []
        else [fun r => if cfg.match_all then groups.all (fun g => g r)
                       else groups.any (fun g => g r)]) = [] := by
    rcases ht with he | ⟨hu, hall⟩
    · simp [he]
    · have hgrp : per_term_groups rx cfg.use_regex cfg.scope cfg.terms = [] := by
        unfold per_term_groups
        rw [List.filterMap_eq_nil_iff]
        intro t htm
        simp [preds_for_term, hu, hall t htm]
      by_cases he2 : cfg.terms.isEmpty
      · simp [he2]
      · simp [he2, hgrp]
  unfold buildPred where_clauses
  rw [hterm, hca, hco, hsu]
  simp

/-- C5 witness: the reduction at a concrete all-empty configuration. -/
theorem claim_C5_witness :
    buildPred dummyRx
        ⟨[], false, false, Scope.Both, [], [], [], 0, 9999⟩ (mkRow [] [] "100".toList)
      = rangePred 0 9999 (mkRow [] [] "100".toList) :=
  claim_C5 dummyRx ⟨[], false, false, Scope.Both, [], [], [], 0, 9999⟩
    rfl rfl rfl (Or.inl rfl) (mkRow [] [] "100".toList)

/-- C8: the course-number range clause is an unconditional conjunct of every
compiled predicate (so a matching row always satisfies it), its bounds are
inclusive, and rows whose course number does not parse as a number are
excluded rather than erroring: with low 3000 and high 5999 it excludes
"2999", includes "3000" and "5999", and excludes non-numeric text. -/
theorem claim_C8 :
    (∀ (rx : RegexFn) (cfg : SearchConfig) (r : Row),
      buildPred rx cfg r = true → rangePred cfg.low_num cfg.high_num r = true)
    ∧ rangePred 3000 5999 (mkRow [] [] "2999".toList) = false
    ∧ rangePred 3000 5999 (mkRow [] [] "3000".toList) = true
    ∧ rangePred 3000 5999 (mkRow [] [] "5999".toList) = true
    ∧ rangePred 3000 5999 (mkRow [] [] "30AB".toList) = false := by
  refine ⟨?_, by decide, by decide, by decide, by decide⟩
  intro rx cfg r h
  unfold buildPred where_clauses at h
  simp only [List.all_append, List.all_cons, List.all_nil, Bool.and_true,
    Bool.and_eq_true] at h
  tauto

/-- C8 witness: a concrete matching row of a concrete configuration satisfies
the range clause. -/
theorem claim_C8_witness :
    rangePred (0 : Int) 9999 (mkRow [] [] "100".toList) = true :=
  claim_C8.1 dummyRx ⟨[], false, false, Scope.Both, [], [], [], 0, 9999⟩
    (mkRow [] [] "100".toList) (by decide)

/-! ## Numeric-domain fallback (C9) -/

/-- C9: when the numeric course-number domain is degenerate — the bounds
unavailable (the min/max aggregates of one query are NULL together, hence the
linkage hypothesis), or min ≥ max after defaulting — the computed slider
bounds are the fixed safe default (0, 9999); and the computation is total, so
no error propagates. -/
theorem claim_C9 (raw_min raw_max : Option Int)
    (hlink : raw_min = none ↔ raw_max = none)
    (hdeg : raw_min = none ∨ raw_max = none
      ∨ _to_int_safe raw_min 0 ≥ _to_int_safe raw_max 9999) :
    computeRange raw_min raw_max = (0, 9999) := by
  rcases hdeg with h | h | h
  · have h2 := hlink.mp h
    subst h
    subst h2
    decide
  · have h2 := hlink.mpr h
    subst h
    subst h2
    decide
  · show (if _to_int_safe raw_min 0 ≥ _to_int_safe raw_max 9999
        then ((0 : Int), (9999 : Int))
        else (_to_int_safe raw_min 0, _to_int_safe raw_max 9999)) = (0, 9999)
    rw [if_pos h]

/-- C9 witness: an inverted concrete domain falls back to (0, 9999). -/
theorem claim_C9_witness : computeRange (some 5000) (some 20) = (0, 9999) :=
  claim_C9 (some 5000) (some 20) (by simp) (Or.inr (Or.inr (by decide)))

/-! ## Term-set mutator claims (C3, C4) -/

/-- C4 counterexample: removing an absent term is not an error-free no-op —
`removeFirst` on the empty term list models Python `list.remove` raising
`ValueError` (`none`), not returning the list unchanged. -/
theorem claim_C4_cex :
    removeFirst "x".toList [] = none ∧ removeFirst "x".toList [] ≠ some [] :=
  ⟨rfl, by decide⟩

/-- C4 (amended): `removeTerm` removes the first occurrence when the term is
present; on an absent term the underlying Python `list.remove` raises
`ValueError` (modelled as `none`) — a state the UI never reaches, since chips
are rendered only for present terms.  `addTerms` and `clear` are total and
never raise (they are plain Lean functions `add_terms_to_state` and the
constant `[]`). -/
theorem claim_C4 (t : List Char) (terms : List (List Char)) :
    (t ∈ terms →
      ∃ l1 l2, terms = l1 ++ t :: l2 ∧ t ∉ l1 ∧ removeFirst t terms = some (l1 ++ l2))
    ∧ (t ∉ terms → removeFirst t terms = none) := by
  induction terms with
  | nil => exact ⟨fun h => absurd h (List.not_mem_nil t), fun _ => rfl⟩
  | cons x xs ih =>
    by_cases he : x = t
    · subst he
      constructor
      · intro _
        refine ⟨[], xs, rfl, List.not_mem_nil x, ?_⟩
        show (if x = x then some xs else (removeFirst x xs).map (fun r => x :: r))
            = some ([] ++ xs)
        rw [if_pos rfl, List.nil_append]
      · intro h
        exact absurd (List.mem_cons_self x xs) h
    · have hr : removeFirst t (x :: xs) = (removeFirst t xs).map (fun r => x :: r) := by
        show (if x = t then some xs else (removeFirst t xs).map (fun r => x :: r)) = _
        rw [if_neg he]
      constructor
      · intro h
        rcases List.mem_cons.mp h with h2 | h2
        · exact absurd h2.symm he
        · rcases ih.1 h2 with ⟨l1, l2, hterms, hnotin, heq⟩
          refine ⟨x :: l1, l2, by rw [hterms]; rfl, ?_, ?_⟩
          · intro hm
            rcases List.mem_cons.mp hm with h3 | h3
            · exact he h3.symm
            · exact hnotin h3
          · rw [hr, heq]
            rfl
      · intro h
        have h2 : t ∉ xs := fun hm => h (List.mem_cons_of_mem x hm)
        rw [hr, ih.2 h2]
        rfl

/-- C4 witness: removal of a present term at a concrete input. -/
theorem claim_C4_witness :
    ∃ l1 l2, ["ai".toList, "ml".toList] = l1 ++ "ml".toList :: l2
      ∧ "ml".toList ∉ l1
      ∧ removeFirst "ml".toList ["ai".toList, "ml".toList] = some (l1 ++ l2) :=
  (claim_C4 "ml".toList ["ai".toList, "ml".toList]).1 (by decide)

theorem add_terms_cons (state : List (List Char)) (t : List Char) (rest : List (List Char)) :
    add_terms_to_state state (t :: rest)
      = if pyStrip t ≠ [] ∧ pyStrip t ∉ state
        then add_terms_to_state (state ++ [pyStrip t]) rest
        else add_terms_to_state state rest := rfl

theorem add_terms_extends :
    ∀ (items state : List (List Char)), ∃ ext, add_terms_to_state state items = state ++ ext := by
  intro items
  induction items with
  | nil => intro state; exact ⟨[], (List.append_nil state).symm⟩
  | cons t rest ih =>
    intro state
    rw [add_terms_cons]
    by_cases hg : pyStrip t ≠ [] ∧ pyStrip t ∉ state
    · rw [if_pos hg]
      rcases ih (state ++ [pyStrip t]) with ⟨u, hu⟩
      exact ⟨pyStrip t :: u, by rw [hu, List.append_assoc, List.singleton_append]⟩
    · rw [if_neg hg]
      exact ih state

theorem add_terms_nodup :
    ∀ (items state : List (List Char)), state.Nodup → (add_terms_to_state state items).Nodup := by
  intro items
  induction items with
  | nil => intro state h; exact h
  | cons t rest ih =>
    intro state h
    rw [add_terms_cons]
    by_cases hg : pyStrip t ≠ [] ∧ pyStrip t ∉ state
    · rw [if_pos hg]
      apply ih
      rw [List.nodup_append]
      exact ⟨h, List.nodup_singleton _,
        fun a ha hb => hg.2 (by rw [List.mem_singleton] at hb; exact hb ▸ ha)⟩
    · rw [if_neg hg]
      exact ih state h

theorem mem_add_terms :
    ∀ (items state : List (List Char)) (x : List Char),
      x ∈ add_terms_to_state state items
        ↔ x ∈ state ∨ ∃ i ∈ items, pyStrip i = x ∧ x ≠ [] := by
  intro items
  induction items with
  | nil => intro state x; simp [add_terms_to_state]
  | cons t rest ih =>
    intro state x
    rw [add_terms_cons]
    by_cases hg : pyStrip t ≠ [] ∧ pyStrip t ∉ state
    · rw [if_pos hg, ih (state ++ [pyStrip t]) x]
      constructor
      · rintro (hx | ⟨i, hi, hpx, hne⟩)
        · rcases List.mem_append.mp hx with h1 | h1
          · exact Or.inl h1
          · rw [List.mem_singleton] at h1
            subst h1
            exact Or.inr ⟨t, List.mem_cons_self t rest, rfl, hg.1⟩
        · exact Or.inr ⟨i, List.mem_cons_of_mem t hi, hpx, hne⟩
      · rintro (hx | ⟨i, hi, hpx, hne⟩)
        · exact Or.inl (List.mem_append.mpr (Or.inl hx))
        · rcases List.mem_cons.mp hi with he | he
          · subst he
            exact Or.inl (List.mem_append.mpr (Or.inr (List.mem_singleton.mpr hpx.symm)))
          · exact Or.inr ⟨i, he, hpx, hne⟩
    · rw [if_neg hg, ih state x]
      have hg2 : pyStrip t = [] ∨ pyStrip t ∈ state := by
        rcases Classical.em (pyStrip t = []) with h0 | h0
        · exact Or.inl h0
        · exact Or.inr (by_contra fun h1 => hg ⟨h0, h1⟩)
      constructor
      · rintro (hx | ⟨i, hi, hpx, hne⟩)
        · exact Or.inl hx
        · exact Or.inr ⟨i, List.mem_cons_of_mem t hi, hpx, hne⟩
      · rintro (hx | ⟨i, hi, hpx, hne⟩)
        · exact Or.inl hx
        · rcases List.mem_cons.mp hi with he | he
          · subst he
            rcases hg2 with h0 | h0
            · exact absurd (hpx.symm.trans h0) hne
            · exact Or.inl (hpx ▸ h0)
          · exact Or.inr ⟨i, he, hpx, hne⟩

/-- C3 counterexample: `addTerms("ai, ml | AI")` on an empty `TermSet` yields
`["ai", "ml", "AI"]`, not `["ai", "ml"]` as claimed: the case-sensitive dedup
does not drop `"AI"` against `"ai"`. -/
theorem claim_C3_cex :
    addTerms "ai, ml | AI".toList [] = ["ai".toList, "ml".toList, "AI".toList]
    ∧ addTerms "ai, ml | AI".toList [] ≠ ["ai".toList, "ml".toList] :=
  ⟨by decide, by decide⟩

/-- C3 (amended): `addTerms` splits its raw input on comma or pipe, trims
each piece, discards empty pieces, and appends each surviving piece only if
not already present by case-sensitive exact match — existing entries are
preserved in place (the old list is a prefix of the new), no duplicates are
introduced, and membership in the result is exactly membership before or
being a non-empty trimmed piece; in particular `addTerms("ai, ml | AI")` on
an empty `TermSet` yields `["ai", "ml", "AI"]` (the `"AI"` is kept: dedup is
case-sensitive), and `addTerms("ai, ai")` yields `["ai"]`. -/
theorem claim_C3 :
    (∀ (state items : List (List Char)), ∃ ext, add_terms_to_state state items = state ++ ext)
    ∧ (∀ (state items : List (List Char)),
        state.Nodup → (add_terms_to_state state items).Nodup)
    ∧ (∀ (state items : List (List Char)) (x : List Char),
        x ∈ add_terms_to_state state items
          ↔ x ∈ state ∨ ∃ i ∈ items, pyStrip i = x ∧ x ≠ [])
    ∧ addTerms "ai, ml | AI".toList [] = ["ai".toList, "ml".toList, "AI".toList]
    ∧ addTerms "ai, ai".toList [] = ["ai".toList] :=
  ⟨fun state items => add_terms_extends items state,
   fun state items => add_terms_nodup items state,
   fun state items => mem_add_terms items state,
   by decide, by decide⟩

/-- C3 witness: the dedup-preservation component at a concrete input. -/
theorem claim_C3_witness :
    (add_terms_to_state ["ai".toList] ["ml".toList]).Nodup :=
  claim_C3.2.1 ["ai".toList] ["ml".toList] (by decide)

/-! ## Stored-text normalization versus term normalization (C2) -/

theorem rtrimSp_cons (c : Char) (cs : List Char) :
    rtrimSp (c :: cs)
      = if (rtrimSp cs).isEmpty then (if c == ' ' then [] else [c]) else c :: rtrimSp cs := rfl

theorem rtrimSp_all_nonspace :
    ∀ l : List Char, (∀ c ∈ l, (c == ' ') = false) → rtrimSp l = l := by
  intro l
  induction l with
  | nil => intro _; rfl
  | cons c cs ih =>
    intro h
    have hc := h c (List.mem_cons_self c cs)
    rw [rtrimSp_cons, ih (fun x hx => h x (List.mem_cons_of_mem c hx))]
    cases cs with
    | nil => simp [hc]
    | cons d ds => simp [hc]

theorem rtrimSp_append :
    ∀ x y : List Char,
      rtrimSp (x ++ y) = if (rtrimSp y).isEmpty then rtrimSp x else x ++ rtrimSp y := by
  intro x y
  induction x with
  | nil =>
    by_cases he : (rtrimSp y).isEmpty
    · rw [List.nil_append, if_pos he]
      rw [List.isEmpty_iff] at he
      rw [he]
      rfl
    · rw [List.nil_append, if_neg he, List.nil_append]
  | cons c cs ih =>
    rw [List.cons_append, rtrimSp_cons, ih]
    by_cases he : (rtrimSp y).isEmpty
    · simp only [if_pos he]
      exact (rtrimSp_cons c cs).symm
    · simp only [if_neg he]
      have hne : (cs ++ rtrimSp y).isEmpty = false := by
        rw [List.isEmpty_eq_false]
        intro hand
        exact he (by rw [(List.append_eq_nil.mp hand).2]; rfl)
      rw [hne, if_neg Bool.false_ne_true, List.cons_append]

theorem collapseAux_cons_pos (b : Bool) (c : Char) (cs : List Char)
    (h : isLowAlnum c = true) : collapseAux b (c :: cs) = c :: collapseAux false cs := by
  simp [collapseAux, h]

theorem collapseAux_cons_neg_true (c : Char) (cs : List Char)
    (h : isLowAlnum c = false) : collapseAux true (c :: cs) = collapseAux true cs := by
  simp [collapseAux, h]

theorem collapseAux_cons_neg_false (c : Char) (cs : List Char)
    (h : isLowAlnum c = false) : collapseAux false (c :: cs) = ' ' :: collapseAux true cs := by
  simp [collapseAux, h]

theorem collapseTrue_cases (l : List Char) :
    collapseAux true l = []
      ∨ ∃ c cs, collapseAux true l = c :: cs ∧ isLowAlnum c = true := by
  induction l with
  | nil => exact Or.inl rfl
  | cons c cs ih =>
    cases h : isLowAlnum c with
    | true => exact Or.inr ⟨c, collapseAux false cs, collapseAux_cons_pos true c cs h, h⟩
    | false => rw [collapseAux_cons_neg_true c cs h]; exact ih

theorem ltrim_collapseTrue (l : List Char) :
    ltrimSp (collapseAux true l) = collapseAux true l := by
  rcases collapseTrue_cases l with he | ⟨c, cs, he, hc⟩
  · rw [he]; rfl
  · rw [he]
    unfold ltrimSp
    rw [List.dropWhile_cons, isLowAlnum_ne_space c hc]
    rfl

theorem ltrim_collapse (l : List Char) :
    ltrimSp (collapseAux false l) = collapseAux true l := by
  cases l with
  | nil => rfl
  | cons c cs =>
    cases h : isLowAlnum c with
    | true =>
      rw [collapseAux_cons_pos false c cs h, collapseAux_cons_pos true c cs h]
      unfold ltrimSp
      rw [List.dropWhile_cons, isLowAlnum_ne_space c h]
      rfl
    | false =>
      rw [collapseAux_cons_neg_false c cs h, collapseAux_cons_neg_true c cs h]
      unfold ltrimSp
      rw [List.dropWhile_cons]
      have : ((' ' : Char) == ' ') = true := by decide
      rw [this, if_pos rfl]
      exact ltrim_collapseTrue cs

theorem joinSpace_cons_ne (t t2 : List Char) (ts : List (List Char)) :
    joinSpace (t :: t2 :: ts) = t ++ ' ' :: joinSpace (t2 :: ts) := rfl

theorem joinSpace_ne_nil (t : List Char) (ts : List (List Char)) (h : t ≠ []) :
    joinSpace (t :: ts) ≠ [] := by
  cases ts with
  | nil => exact h
  | cons t2 ts2 =>
    rw [joinSpace_cons_ne]
    intro he
    exact h (List.append_eq_nil.mp he).1

theorem collapse_main :
    ∀ (n : Nat) (l : List Char), l.length ≤ n →
      (rtrimSp (collapseAux true l) = joinSpace (tokensAux isLowAlnum [] l))
      ∧ (∀ cur : List Char, cur ≠ [] → (∀ c ∈ cur, isLowAlnum c = true) →
          rtrimSp (cur.reverse ++ collapseAux false l)
            = joinSpace (tokensAux isLowAlnum cur l)) := by
  intro n
  induction n with
  | zero =>
    intro l hl
    have hnil : l = [] := List.eq_nil_of_length_eq_zero (Nat.le_zero.mp hl)
    subst hnil
    refine ⟨rfl, fun cur hcur hall => ?_⟩
    rw [collapseAux, List.append_nil, tokensAux_nil,
      if_neg (by simpa [List.isEmpty_iff] using hcur),
      rtrimSp_all_nonspace cur.reverse
        (fun c hc => isLowAlnum_ne_space c (hall c (List.mem_reverse.mp hc)))]
    rfl
  | succ n ih =>
    intro l hl
    cases l with
    | nil =>
      refine ⟨rfl, fun cur hcur hall => ?_⟩
      rw [collapseAux, List.append_nil, tokensAux_nil,
        if_neg (by simpa [List.isEmpty_iff] using hcur),
        rtrimSp_all_nonspace cur.reverse
          (fun c hc => isLowAlnum_ne_space c (hall c (List.mem_reverse.mp hc)))]
      rfl
    | cons c cs =>
      have hcs : cs.length ≤ n := by
        simp only [List.length_cons] at hl
        omega
      have ihM := (ih cs hcs).1
      have ihG := (ih cs hcs).2
      constructor
      · cases h : isLowAlnum c with
        | true =>
          rw [collapseAux_cons_pos true c cs h, tokensAux_cons_pos _ [] c cs h]
          have hG := ihG [c] (by simp)
            (fun x hx => by rw [List.mem_singleton] at hx; exact hx ▸ h)
          simpa using hG
        | false =>
          rw [collapseAux_cons_neg_true c cs h, tokensAux_cons_neg_nil _ c cs h]
          exact ihM
      · intro cur hcur hall
        cases h : isLowAlnum c with
        | true =>
          rw [collapseAux_cons_pos false c cs h, tokensAux_cons_pos _ cur c cs h]
          have he : cur.reverse ++ c :: collapseAux false cs
              = (c :: cur).reverse ++ collapseAux false cs := by
            rw [List.reverse_cons, List.append_assoc, List.singleton_append]
          rw [he]
          exact ihG (c :: cur) (by simp)
            (fun x hx => (List.mem_cons.mp hx).elim (fun e => e ▸ h) (hall x))
        | false =>
          rw [collapseAux_cons_neg_false c cs h, tokensAux_cons_neg _ cur c cs h hcur,
            rtrimSp_append]
          have hnsp : ∀ x ∈ cur.reverse, (x == ' ') = false :=
            fun x hx => isLowAlnum_ne_space x (hall x (List.mem_reverse.mp hx))
          cases hT : tokensAux isLowAlnum [] cs with
          | nil =>
            have hJ : rtrimSp (collapseAux true cs) = [] := by
              rw [ihM, hT]
              rfl
            have h1 : rtrimSp (' ' :: collapseAux true cs) = [] := by
              rw [rtrimSp_cons, hJ]
              rfl
            rw [h1]
            show rtrimSp cur.reverse = joinSpace [cur.reverse]
            rw [rtrimSp_all_nonspace cur.reverse hnsp]
            rfl
          | cons t2 ts2 =>
            have ht2 : t2 ≠ [] := by
              have := tokensAux_all isLowAlnum cs []
                (fun x hx => absurd hx (List.not_mem_nil x)) t2
                (by rw [hT]; exact List.mem_cons_self t2 ts2)
              exact this.1
            have hJne : joinSpace (t2 :: ts2) ≠ [] := joinSpace_ne_nil t2 ts2 ht2
            have hJ : rtrimSp (collapseAux true cs) = joinSpace (t2 :: ts2) := by
              rw [ihM, hT]
            have h1 : rtrimSp (' ' :: collapseAux true cs)
                = ' ' :: joinSpace (t2 :: ts2) := by
              rw [rtrimSp_cons, hJ, if_neg (by simpa [List.isEmpty_iff] using hJne)]
            rw [h1, if_neg (by simp [List.isEmpty_iff])]
            exact (joinSpace_cons_ne cur.reverse t2 ts2).symm

theorem sqlNorm_vs_termNorm (s : List Char) :
    rtrimSp (ltrimSp (collapseNonAlnum (s.map lowerC))) = normalize_term_to_phrase s := by
  show rtrimSp (ltrimSp (collapseAux false (s.map lowerC))) = _
  rw [ltrim_collapse (s.map lowerC),
    (collapse_main (s.map lowerC).length (s.map lowerC) le_rfl).1,
    tokensAux_congr isLowAlnum isAlnum (s.map lowerC) []
      (fun c hc => by
        rcases List.mem_map.mp hc with ⟨c0, _, he⟩
        subst he
        rw [isLowAlnum_lowerC, isAlnum_lowerC])]
  rfl

/-- C2 counterexample: on the input "-a" the stored-text normalization
(`REGEXP_REPLACE(LOWER(s), '[^a-z0-9]+', ' ')`) gives " a" — the leading
separator run becomes a space — while `normalize_term_to_phrase` gives "a",
so the two normalizations do not produce the same string for every input. -/
theorem claim_C2_cex :
    collapseNonAlnum ("-a".toList.map lowerC) = " a".toList
    ∧ normalize_term_to_phrase "-a".toList = "a".toList
    ∧ collapseNonAlnum ("-a".toList.map lowerC) ≠ normalize_term_to_phrase "-a".toList :=
  ⟨by decide, by decide, by decide⟩

/-- C2 (amended): the stored-text normalization (lower-case, then replace
every maximal run of non-alphanumeric characters by one space, as in
`NORM_TITLE`/`NORM_DESC`) agrees with the term normalization
(`normalize_term_to_phrase`) up to boundary spaces only: for every string,
stripping leading and trailing spaces from the stored-text normalization
yields exactly the term normalization.  (The boundary spaces are harmless to
phrase containment because the builder pads the field and pattern with
spaces.) -/
theorem claim_C2 :
    ∀ s : List Char,
      rtrimSp (ltrimSp (collapseNonAlnum (s.map lowerC))) = normalize_term_to_phrase s :=
  sqlNorm_vs_termNorm

end CourseSearch
